import Mathlib

/-!
Verification of the document-indexing core.

A shallow embedding, in Lean 4, of the core algorithmic components of the
retrieval-augmented document assistant:

* the text chunker (`src/utils/textSplitter.ts`),
* the vector similarity engine (`src/utils/vectorStore.ts`),
* the per-document indexing worker (`src/unnamed/part_000`),
* the bounded-concurrency indexing scheduler, `ShadowIndexer`
  (`src/unnamed/part_005`).

JavaScript strings are modelled as `List Char` with `Nat` indices, JS numbers
used as counters/indices as `Nat` (or `Int` where a sentinel `-1` or a
decrement occurs), and JS floats appearing in similarity scores as `ℚ`.
`Math.sqrt` is an opaque platform builtin whose numeric values no verified
property depends on, so it is passed as an explicit function parameter.
-/

namespace Spec2Proof

/-! Section: the chunker (`src/utils/textSplitter.ts`) -/

/-- The `Chunk` interface from `src/utils/textSplitter.ts`: a contiguous fragment of a
document's text together with its offsets into the source text. -/
structure Chunk where
  id : String
  documentId : String
  content : List Char
  startIndex : Nat
  endIndex : Nat
deriving DecidableEq

/-- JS `text.lastIndexOf(c, pos)` for a single-character needle: the largest
index `i ≤ pos` with `text[i] = c`, or `-1` when there is none. -/
def lastIndexOf (text : List Char) (c : Char) (pos : Nat) : Int :=
  match ((List.range (pos + 1)).filter
      (fun i => decide (text.get? i = some c))).getLast? with
  | some j => (j : Int)
  | none => -1

/-- The chunk-end computation of one iteration of `splitTextIntoChunks`
(`src/utils/textSplitter.ts` lines 20-37).  The candidate end is
`start + chunkSize`; before the text end it snaps back to the last newline,
else the last space, whenever that snap point lies past the 50% midpoint
`startIndex + chunkSize * 0.5`; the float comparison
`j > startIndex + chunkSize * 0.5` is rendered exactly over the integers as
`2 * j > 2 * startIndex + chunkSize`. -/
def computeEnd (text : List Char) (chunkSize startIndex : Nat) : Nat :=
  let e := startIndex + chunkSize
  if e < text.length then
    let lastNewLine := lastIndexOf text '\n' e
    if 2 * lastNewLine > 2 * (startIndex : Int) + (chunkSize : Int) then
      (lastNewLine + 1).toNat
    else
      let lastSpace := lastIndexOf text ' ' e
      if 2 * lastSpace > 2 * (startIndex : Int) + (chunkSize : Int) then
        (lastSpace + 1).toNat
      else e
  else text.length

/-- The next start index of the chunking loop
(`src/utils/textSplitter.ts` line 53): `Math.max(startIndex + 1, endIndex - overlap)`. -/
def nextStart (startIndex endIndex overlap : Nat) : Nat :=
  max (startIndex + 1) (endIndex - overlap)

/-- The chunk pushed by one loop iteration
(`src/utils/textSplitter.ts` lines 39-47); `count` is `chunks.length` so far. -/
def mkChunk (text : List Char) (documentId : String) (chunkSize startIndex count : Nat) :
    Chunk :=
  let endIndex := computeEnd text chunkSize startIndex
  ⟨documentId ++ "_" ++ toString count, documentId,
    (text.drop startIndex).take (endIndex - startIndex), startIndex, endIndex⟩

/-- The `while (startIndex < text.length)` loop of `splitTextIntoChunks`
(`src/utils/textSplitter.ts` lines 19-54). -/
def splitLoop (text : List Char) (documentId : String) (chunkSize overlap : Nat)
    (startIndex count : Nat) : List Chunk :=
  if startIndex < text.length then
    let chunk := mkChunk text documentId chunkSize startIndex count
    if chunk.endIndex = text.length then [chunk]
    else chunk :: splitLoop text documentId chunkSize overlap
      (nextStart startIndex chunk.endIndex overlap) (count + 1)
  else []
termination_by text.length - startIndex
decreasing_by
  have h1 : startIndex + 1 ≤ nextStart startIndex
      (mkChunk text documentId chunkSize startIndex count).endIndex overlap :=
    le_max_left _ _
  omega

/-- The exported `splitTextIntoChunks` (`src/utils/textSplitter.ts` lines 10-57) with the
source's default `chunkSize = 1000`, `overlap = 200`. -/
def splitTextIntoChunks (text : List Char) (documentId : String)
    (chunkSize : Nat := 1000) (overlap : Nat := 200) : List Chunk :=
  splitLoop text documentId chunkSize overlap 0 0

/-! Section: the similarity engine (`src/utils/vectorStore.ts`) -/

/-- The `EmbeddedChunk` interface from `src/utils/vectorStore.ts`: a chunk together with its
embedding vector. -/
structure EmbeddedChunk extends Chunk where
  embedding : List ℚ
deriving DecidableEq

/-- The `cosineSimilarity` function (`src/utils/vectorStore.ts` lines 9-29).  `sqrt` stands
for the opaque `Math.sqrt` builtin; it is an explicit parameter because no
verified property depends on its numeric values. -/
def cosineSimilarity (sqrt : ℚ → ℚ) (vecA vecB : List ℚ) : ℚ :=
  if vecA.length ≠ vecB.length then -1
  else
    let dotProduct := (List.zipWith (· * ·) vecA vecB).sum
    let normA := (vecA.map (fun x => x * x)).sum
    let normB := (vecB.map (fun x => x * x)).sum
    if normA = 0 ∨ normB = 0 then 0
    else dotProduct / (sqrt normA * sqrt normB)

/-- The `SearchResult` interface from `src/utils/vectorStore.ts`: an embedded chunk with its
similarity score. -/
structure SearchResult extends EmbeddedChunk where
  score : ℚ
deriving DecidableEq

/-- The comparator `(a, b) => b.score - a.score` passed to the stable
`Array.prototype.sort` in `findMostRelevantChunks`: element `a` may precede
`b` exactly when `b.score - a.score` is nonnegative. -/
def scoreDescLe (a b : SearchResult) : Bool :=
  decide (b.score ≤ a.score)

/-- The `findMostRelevantChunks` function (`src/utils/vectorStore.ts` lines 36-50): score
every chunk, stable-sort descending by score, return the first `topK`.
`Array.prototype.sort` is stable, so it is rendered by the stable
`List.mergeSort`; `slice(0, topK)` is `take topK`. -/
def findMostRelevantChunks (sqrt : ℚ → ℚ) (queryEmbedding : List ℚ)
    (chunks : List EmbeddedChunk) (topK : Nat := 10) : List SearchResult :=
  let scoredChunks := chunks.map
    (fun chunk => ⟨chunk, cosineSimilarity sqrt queryEmbedding chunk.embedding⟩)
  (scoredChunks.mergeSort scoreDescLe).take topK

/-! Section: the data model (`src/types.ts`) -/

/-- The `Document.status` values from `src/types.ts`. -/
inductive DocStatus where
  | processing
  | ready
  | error
deriving DecidableEq

/-- The `Document.indexingStatus` values from `src/types.ts`; the worker emits the
`indexing`, `completed` and `failed` ones. -/
inductive IndexingStatus where
  | pending
  | indexing
  | completed
  | failed
deriving DecidableEq

/-- The `Document` interface from `src/types.ts`; optional fields are `Option`s. -/
structure Document where
  id : String
  name : String
  type : String
  size : Nat
  content : String
  path : Option String
  isJoomlaManifest : Option Bool
  moduleName : Option String
  status : DocStatus
  indexingStatus : Option IndexingStatus
  isSelected : Bool
deriving DecidableEq

/-! Section: the per-document indexing worker (`src/unnamed/part_000`) -/

/-- A `postMessage` payload from the worker
(`src/unnamed/part_000`): always `type: 'status'` with a document id and a
status; the successful-completion message additionally carries the embedded
chunks. -/
structure WorkerMsg where
  docId : String
  status : IndexingStatus
  chunks : Option (List EmbeddedChunk)
deriving DecidableEq

/-- The positional zip of chunks with returned embeddings
(`src/unnamed/part_000` lines 24-29): slot `i` is kept exactly when
`embeddings[i]` is present (an absent or `undefined` slot is falsy and the
chunk is dropped). -/
def zipEmbeddings (chunks : List Chunk) (embeddings : List (Option (List ℚ))) :
    List EmbeddedChunk :=
  chunks.enum.filterMap
    (fun p => ((embeddings.get? p.1).getD none).map (fun e => ⟨p.2, e⟩))

/-- The chunk list the worker computes for a document
(`src/unnamed/part_000` line 17): `splitTextIntoChunks(doc.content, doc.id)`
with the splitter's default `chunkSize`/`overlap`. -/
def workerChunks (doc : Document) : List Chunk :=
  splitTextIntoChunks doc.content.toList doc.id

/-- The worker's `ctx.onmessage` handler (`src/unnamed/part_000` lines 9-47)
for one document.  The embedding provider call is the only fallible step; its
outcome is the `embedRes` oracle: `.error` models `getEmbeddings` throwing
(caught by the handler, which then posts `failed`), `.ok` a returned array
whose slot `i` may be missing.  The list is the sequence of posted messages
in order. -/
def runWorker (doc : Document)
    (embedRes : Except Unit (List (Option (List ℚ)))) : List WorkerMsg :=
  let chunks := workerChunks doc
  ⟨doc.id, .indexing, none⟩ ::
    (if chunks.length > 0 then
      match embedRes with
      | .error _ => [⟨doc.id, .failed, none⟩]
      | .ok embeddings => [⟨doc.id, .completed, some (zipEmbeddings chunks embeddings)⟩]
    else [⟨doc.id, .completed, none⟩])

/-! Section: the indexing scheduler (`ShadowIndexer`, `src/unnamed/part_005`) -/

/-- The scheduler's mutable state (`src/unnamed/part_005` lines 182-183): the
FIFO `queue` and the `activeWorkers` count (an `Int`, as the source decrements
a JS number). -/
structure SchedState where
  queue : List Document
  activeWorkers : Int
deriving DecidableEq

/-- The `MAX_CONCURRENT` limit (`src/unnamed/part_005` line 184). -/
def MAX_CONCURRENT : Int := 3

/-- The `processNext` admission routine (`src/unnamed/part_005` lines 217-229): when below the
concurrency limit and the queue is non-empty, dequeue the head, increment the
active count and dispatch it (the returned `Option Document` is the document
posted to the worker, if any). -/
def processNext (s : SchedState) : SchedState × Option Document :=
  if MAX_CONCURRENT ≤ s.activeWorkers ∨ s.queue = [] then (s, none)
  else
    match s.queue with
    | [] => (s, none)
    | doc :: rest => (⟨rest, s.activeWorkers + 1⟩, some doc)

/-- The image-type test `doc.type.startsWith('image/')` of `queueDocument`
(`src/unnamed/part_005` line 211), rendered as a character-list prefix test. -/
def isImageType (t : String) : Bool :=
  ("image/".toList).isPrefixOf t.toList

/-- The `queueDocument` entry point (`src/unnamed/part_005` lines 209-215): a document whose
MIME type starts with `image/` is rejected silently; otherwise it is appended
to the queue and admission is attempted. -/
def queueDocument (s : SchedState) (doc : Document) : SchedState × Option Document :=
  if isImageType doc.type then (s, none)
  else processNext ⟨s.queue ++ [doc], s.activeWorkers⟩

/-- The terminal-status part of the scheduler's `worker.onmessage` handler
(`src/unnamed/part_005` lines 197-200): decrement the active count and
immediately re-run admission. -/
def handleTerminal (s : SchedState) : SchedState × Option Document :=
  processNext ⟨s.queue, s.activeWorkers - 1⟩

/-- A callback invocation observable by the consuming application: the status
callback `(docId, status)` or the data callback `(docId, chunks)`. -/
inductive CbEvent where
  | statusCb (docId : String) (status : IndexingStatus)
  | dataCb (docId : String) (chunks : List EmbeddedChunk)
deriving DecidableEq

/-- The callback invocations the scheduler performs on one worker message.
The status-callback invocation on every `type: 'status'` message is from the
`worker.onmessage` handler in `src/unnamed/part_005` (lines 192-202).
Modelled from the spec: the data-callback dispatch.  The `ShadowIndexer`
variant exposing `setDataCallback` — imported by the App in
`src/unnamed/part_003`, which registers a data callback persisting the chunks
— is not among the source files; per the spec the data callback is
"invoked only on successful completion with non-empty results". -/
def handleWorkerMessage (m : WorkerMsg) : List CbEvent :=
  CbEvent.statusCb m.docId m.status ::
    (match m.status, m.chunks with
     | .completed, some l => if l.length > 0 then [CbEvent.dataCb m.docId l] else []
     | _, _ => [])

/-! Section: the scheduler-plus-workers transition system

The scheduler and its dispatched worker runs form a message-passing system:
`queueDocument` may dispatch a document, each dispatched document's worker
first posts its `indexing` status and later exactly one terminal status
(`runWorker` produces exactly that shape), and each arriving message drives
the `worker.onmessage` handler of `src/unnamed/part_005`.  `SysState` is the
scheduler state together with the in-flight documents (dispatched, terminal
message not yet received; the `Bool` records whether the `indexing` message
has already arrived) and the trace of status-callback invocations. -/

/-- Whole-system state: scheduler state, in-flight dispatched documents, and
the trace of callback invocations so far. -/
structure SysState where
  sched : SchedState
  inflight : List (Document × Bool)
  events : List CbEvent
deriving DecidableEq

/-- The initial system: empty queue, zero active workers, nothing dispatched,
no callback invoked (`src/unnamed/part_005` lines 182-183). -/
def initSys : SysState := ⟨⟨[], 0⟩, [], []⟩

/-- Effect of a `queueDocument` call on the whole system: the scheduler step,
with a dispatched document (if any) becoming in-flight. -/
def applyQueue (sys : SysState) (doc : Document) : SysState :=
  ⟨(queueDocument sys.sched doc).1,
    sys.inflight ++ ((queueDocument sys.sched doc).2.toList.map (fun d => (d, false))),
    sys.events⟩

/-- Effect of a terminal worker message on the scheduler
(`src/unnamed/part_005` lines 197-200): decrement-and-readmit, with a newly
dispatched document (if any) becoming in-flight. -/
def applyTerminal (sys : SysState) : SysState :=
  ⟨(handleTerminal sys.sched).1,
    sys.inflight ++ ((handleTerminal sys.sched).2.toList.map (fun d => (d, false))),
    sys.events⟩

/-- The reachable system states, indexed by the list of documents passed to
`queueDocument` so far.  `emitIndexing` delivers an in-flight document's
`indexing` message (invoking the status callback), `emitTerminal` its single
terminal message (invoking the status callback, then decrementing the active
count and re-running admission, per `src/unnamed/part_005` lines 192-202). -/
inductive Reachable : List Document → SysState → Prop where
  | init : Reachable [] initSys
  | queue {ds : List Document} {sys : SysState} (doc : Document) :
      Reachable ds sys → Reachable (ds ++ [doc]) (applyQueue sys doc)
  | emitIndexing {ds : List Document} {sys : SysState}
      (pre post : List (Document × Bool)) (doc : Document) :
      Reachable ds sys →
      sys.inflight = pre ++ (doc, false) :: post →
      Reachable ds ⟨sys.sched, pre ++ (doc, true) :: post,
        sys.events ++ [CbEvent.statusCb doc.id .indexing]⟩
  | emitTerminal {ds : List Document} {sys : SysState}
      (pre post : List (Document × Bool)) (doc : Document) (st : IndexingStatus) :
      Reachable ds sys →
      sys.inflight = pre ++ (doc, true) :: post →
      st = .completed ∨ st = .failed →
      Reachable ds (applyTerminal ⟨sys.sched, pre ++ post,
        sys.events ++ [CbEvent.statusCb doc.id st]⟩)

/-! Section: theorems about the similarity engine -/

/-- Helper: on a length mismatch `cosineSimilarity` returns the sentinel. -/
theorem cosineSimilarity_of_mismatch (sqrt : ℚ → ℚ) (vecA vecB : List ℚ)
    (h : vecA.length ≠ vecB.length) : cosineSimilarity sqrt vecA vecB = -1 := by
  simp [cosineSimilarity, h]

/-- Claim C6: `cosineSimilarity` is a total function that never throws: on a
length mismatch it returns the sentinel `-1`; on equal lengths with either
squared norm zero it returns `0`; otherwise it returns the cosine of the two
vectors, i.e. their dot product divided by the product of the square roots of
their squared norms. -/
theorem cosineSimilarity_cases (sqrt : ℚ → ℚ) (vecA vecB : List ℚ) :
    (vecA.length ≠ vecB.length → cosineSimilarity sqrt vecA vecB = -1) ∧
    (vecA.length = vecB.length →
      ((vecA.map (fun x => x * x)).sum = 0 ∨ (vecB.map (fun x => x * x)).sum = 0) →
      cosineSimilarity sqrt vecA vecB = 0) ∧
    (vecA.length = vecB.length →
      (vecA.map (fun x => x * x)).sum ≠ 0 → (vecB.map (fun x => x * x)).sum ≠ 0 →
      cosineSimilarity sqrt vecA vecB =
        (List.zipWith (· * ·) vecA vecB).sum /
          (sqrt (vecA.map (fun x => x * x)).sum * sqrt (vecB.map (fun x => x * x)).sum)) := by
  refine ⟨fun h => ?_, fun h h0 => ?_, fun h hA hB => ?_⟩
  · simp [cosineSimilarity, h]
  · simp only [cosineSimilarity, h, ne_eq, not_true_eq_false, if_false]
    rw [if_pos h0]
  · simp only [cosineSimilarity, h, ne_eq, not_true_eq_false, if_false]
    rw [if_neg (by push_neg; exact ⟨hA, hB⟩)]

/-- Witness for C6: concrete evaluations of each branch of
`cosineSimilarity_cases`. -/
theorem cosineSimilarity_cases_witness :
    cosineSimilarity id [1] [1, 0] = -1 ∧
    cosineSimilarity id [0, 0] [1, 2] = 0 ∧
    cosineSimilarity id [1, 0] [1, 0] =
      (List.zipWith (· * ·) [1, 0] [1, 0]).sum /
        (id (([1, 0] : List ℚ).map (fun x => x * x)).sum *
          id (([1, 0] : List ℚ).map (fun x => x * x)).sum) :=
  ⟨(cosineSimilarity_cases id [1] [1, 0]).1 (by decide),
   (cosineSimilarity_cases id [0, 0] [1, 2]).2.1 (by decide) (by norm_num),
   (cosineSimilarity_cases id [1, 0] [1, 0]).2.2 (by decide) (by norm_num) (by norm_num)⟩

/-- The descending-score comparator is transitive. -/
theorem scoreDescLe_trans (a b c : SearchResult) :
    scoreDescLe a b → scoreDescLe b c → scoreDescLe a c := by
  simp only [scoreDescLe, decide_eq_true_eq]
  exact fun h1 h2 => le_trans h2 h1

/-- The descending-score comparator is total. -/
theorem scoreDescLe_total (a b : SearchResult) :
    scoreDescLe a b || scoreDescLe b a := by
  simp only [scoreDescLe, Bool.or_eq_true, decide_eq_true_eq]
  exact le_total b.score a.score

/-- Stability of the modelled sort: filtering by any predicate that forces
the comparator to hold between any two of its elements commutes with
sorting, i.e. those elements come out in their original relative order. -/
theorem mergeSort_filter_stable (l : List SearchResult) (p : SearchResult → Bool)
    (hp : ∀ a b, p a → p b → scoreDescLe a b) :
    (l.mergeSort scoreDescLe).filter p = l.filter p := by
  have hpair : (l.filter p).Pairwise (fun a b => scoreDescLe a b) :=
    List.pairwise_of_forall_mem_list (fun a ha b hb =>
      hp a b (List.of_mem_filter ha) (List.of_mem_filter hb))
  have hsub : List.Sublist (l.filter p) (l.mergeSort scoreDescLe) :=
    List.sublist_mergeSort scoreDescLe_trans scoreDescLe_total hpair (List.filter_sublist l)
  have hsub2 : List.Sublist (l.filter p) ((l.mergeSort scoreDescLe).filter p) := by
    have := hsub.filter p
    rwa [List.filter_filter, show ((fun b => p b && p b) : SearchResult → Bool) = p
      from funext (fun b => Bool.and_self (p b))] at this
  have hperm : List.Perm ((l.mergeSort scoreDescLe).filter p) (l.filter p) :=
    (l.mergeSort_perm scoreDescLe).filter p
  exact (hsub2.eq_of_length hperm.length_eq.symm).symm

/-- Claim C3: `findMostRelevantChunks` scores every input chunk (a chunk with
an embedding length differing from the query's gets the sentinel score `-1`
yet stays in the candidate set, which the sort merely permutes), and returns
the first `topK` of the stable descending sort: exactly
`min topK (number of chunks)` results, sorted non-increasingly by score, and
elements of equal score keep their original relative order (both in the full
sorted candidate list and hence in the returned prefix). -/
theorem findMostRelevantChunks_spec (sqrt : ℚ → ℚ) (queryEmbedding : List ℚ)
    (chunks : List EmbeddedChunk) (topK : Nat) :
    (findMostRelevantChunks sqrt queryEmbedding chunks topK).length = min topK chunks.length ∧
    List.Pairwise (fun a b => b.score ≤ a.score)
      (findMostRelevantChunks sqrt queryEmbedding chunks topK) ∧
    (chunks.map (fun chunk =>
        (⟨chunk, cosineSimilarity sqrt queryEmbedding chunk.embedding⟩ : SearchResult))).length
      = chunks.length ∧
    (∀ r ∈ chunks.map (fun chunk =>
        (⟨chunk, cosineSimilarity sqrt queryEmbedding chunk.embedding⟩ : SearchResult)),
      r.embedding.length ≠ queryEmbedding.length → r.score = -1) ∧
    List.Perm ((chunks.map (fun chunk =>
        (⟨chunk, cosineSimilarity sqrt queryEmbedding chunk.embedding⟩ : SearchResult))).mergeSort
        scoreDescLe) (chunks.map (fun chunk =>
        (⟨chunk, cosineSimilarity sqrt queryEmbedding chunk.embedding⟩ : SearchResult))) ∧
    (∀ s : ℚ,
      ((chunks.map (fun chunk =>
          (⟨chunk, cosineSimilarity sqrt queryEmbedding chunk.embedding⟩ : SearchResult))).mergeSort
          scoreDescLe).filter (fun r => decide (r.score = s)) =
        (chunks.map (fun chunk =>
          (⟨chunk, cosineSimilarity sqrt queryEmbedding chunk.embedding⟩ : SearchResult))).filter
          (fun r => decide (r.score = s))) ∧
    findMostRelevantChunks sqrt queryEmbedding chunks topK =
      ((chunks.map (fun chunk =>
          (⟨chunk, cosineSimilarity sqrt queryEmbedding chunk.embedding⟩ : SearchResult))).mergeSort
          scoreDescLe).take topK := by
  set scored := chunks.map (fun chunk =>
    (⟨chunk, cosineSimilarity sqrt queryEmbedding chunk.embedding⟩ : SearchResult)) with hscored
  have hdef : findMostRelevantChunks sqrt queryEmbedding chunks topK =
      (scored.mergeSort scoreDescLe).take topK := rfl
  have hperm : List.Perm (scored.mergeSort scoreDescLe) scored := scored.mergeSort_perm scoreDescLe
  have hsorted : (scored.mergeSort scoreDescLe).Pairwise (fun a b => scoreDescLe a b) :=
    List.sorted_mergeSort scoreDescLe_trans scoreDescLe_total scored
  refine ⟨?_, ?_, ?_, ?_, hperm, ?_, hdef⟩
  · rw [hdef, List.length_take, hperm.length_eq, hscored, List.length_map]
  · rw [hdef]
    exact ((hsorted.sublist (List.take_sublist topK _)).imp
      (fun h => by simpa [scoreDescLe] using h))
  · exact List.length_map _ _
  · intro r hr hne
    rcases List.mem_map.mp hr with ⟨chunk, _, rfl⟩
    exact cosineSimilarity_of_mismatch sqrt queryEmbedding chunk.embedding
      (fun h => hne h.symm)
  · intro s
    exact mergeSort_filter_stable scored (fun r => decide (r.score = s))
      (fun a b ha hb => by
        simp only [decide_eq_true_eq] at ha hb
        simp [scoreDescLe, ha, hb])

/-- Witness for C3: the spec applied at a concrete query and chunk list. -/
theorem findMostRelevantChunks_spec_witness :
    (findMostRelevantChunks id [1] [⟨⟨"d_0", "d", [], 0, 0⟩, [1]⟩] 1).length =
      min 1 [(⟨⟨"d_0", "d", [], 0, 0⟩, [1]⟩ : EmbeddedChunk)].length :=
  (findMostRelevantChunks_spec id [1] [⟨⟨"d_0", "d", [], 0, 0⟩, [1]⟩] 1).1

/-! Section: theorems about the scheduler -/

/-- Characterization of one `processNext` call: either the admission guard
fails and nothing happens, or the queue head is dequeued and dispatched with
the active count incremented. -/
theorem processNext_cases (s : SchedState) :
    (processNext s = (s, none) ∧ (MAX_CONCURRENT ≤ s.activeWorkers ∨ s.queue = [])) ∨
    (∃ d rest, s.queue = d :: rest ∧ s.activeWorkers < MAX_CONCURRENT ∧
      processNext s = (⟨rest, s.activeWorkers + 1⟩, some d)) := by
  by_cases h : MAX_CONCURRENT ≤ s.activeWorkers ∨ s.queue = []
  · left
    exact ⟨by simp [processNext, h], h⟩
  · right
    push_neg at h
    obtain ⟨h1, h2⟩ := h
    match hq : s.queue with
    | [] => exact absurd hq h2
    | d :: rest =>
      refine ⟨d, rest, rfl, h1, ?_⟩
      simp only [processNext, hq]
      rw [if_neg (by simp [hq]; omega)]

/-- The inductive invariant of the scheduler-plus-workers system: the active
count equals the number of in-flight documents and stays within the
concurrency limit, every queued or in-flight document was passed to
`queueDocument` and is not an image, and every status-callback invocation
carries the id of such a document. -/
def SysInv (ds : List Document) (sys : SysState) : Prop :=
  sys.sched.activeWorkers = (sys.inflight.length : Int) ∧
  sys.inflight.length ≤ 3 ∧
  (∀ d ∈ sys.sched.queue, d ∈ ds ∧ isImageType d.type = false) ∧
  (∀ p ∈ sys.inflight, p.1 ∈ ds ∧ isImageType p.1.type = false) ∧
  (∀ docId st, CbEvent.statusCb docId st ∈ sys.events →
    ∃ d, d ∈ ds ∧ isImageType d.type = false ∧ d.id = docId)

/-- Every reachable system state satisfies the invariant. -/
theorem reachable_sysInv {ds : List Document} {sys : SysState}
    (h : Reachable ds sys) : SysInv ds sys := by
  induction h with
  | init =>
    refine ⟨rfl, by simp [initSys], ?_, ?_, ?_⟩ <;> simp [initSys]
  | queue doc hr ih =>
    obtain ⟨hact, hlen, hq, hinf, hev⟩ := ih
    rename_i ds' sys'
    by_cases himg : isImageType doc.type = true
    · have hqd0 : queueDocument sys'.sched doc = (sys'.sched, none) := by
        simp only [queueDocument, if_pos himg]
      have happ : applyQueue sys' doc = sys' := by
        simp only [applyQueue, hqd0, Option.toList_none, List.map_nil, List.append_nil]
      rw [happ]
      refine ⟨hact, hlen, ?_, ?_, ?_⟩
      · exact fun d hd => ⟨List.mem_append_left _ (hq d hd).1, (hq d hd).2⟩
      · exact fun p hp => ⟨List.mem_append_left _ (hinf p hp).1, (hinf p hp).2⟩
      · intro docId st hst
        obtain ⟨d, hd1, hd2, hd3⟩ := hev docId st hst
        exact ⟨d, List.mem_append_left _ hd1, hd2, hd3⟩
    · rw [Bool.not_eq_true] at himg
      have hqd : queueDocument sys'.sched doc =
          processNext ⟨sys'.sched.queue ++ [doc], sys'.sched.activeWorkers⟩ := by
        simp [queueDocument, himg]
      have hmemq : ∀ d ∈ sys'.sched.queue ++ [doc],
          d ∈ ds' ++ [doc] ∧ isImageType d.type = false := by
        intro d hd
        rcases List.mem_append.mp hd with hd | hd
        · exact ⟨List.mem_append_left _ (hq d hd).1, (hq d hd).2⟩
        · rcases List.mem_singleton.mp hd with rfl
          exact ⟨List.mem_append_right _ (List.mem_singleton_self _), himg⟩
      rcases processNext_cases ⟨sys'.sched.queue ++ [doc], sys'.sched.activeWorkers⟩ with
        ⟨heq, _⟩ | ⟨d, rest, hqeq, hlt, heq⟩
      · have happ : applyQueue sys' doc =
            ⟨⟨sys'.sched.queue ++ [doc], sys'.sched.activeWorkers⟩,
              sys'.inflight, sys'.events⟩ := by
          simp only [applyQueue, hqd, heq, Option.toList_none, List.map_nil,
            List.append_nil]
        rw [happ]
        refine ⟨hact, hlen, hmemq, ?_, ?_⟩
        · intro p hp
          obtain ⟨h1, h2⟩ := hinf p hp
          exact ⟨List.mem_append_left _ h1, h2⟩
        · intro docId st hst
          obtain ⟨x, hx1, hx2, hx3⟩ := hev docId st hst
          exact ⟨x, List.mem_append_left _ hx1, hx2, hx3⟩
      · simp only at hqeq
        have happ : applyQueue sys' doc =
            ⟨⟨rest, sys'.sched.activeWorkers + 1⟩,
              sys'.inflight ++ [(d, false)], sys'.events⟩ := by
          simp only [applyQueue, hqd, heq, Option.toList_some, List.map_cons,
            List.map_nil]
        rw [happ]
        have hdmem : d ∈ ds' ++ [doc] ∧ isImageType d.type = false :=
          hmemq d (by rw [hqeq]; exact List.mem_cons_self _ _)
        refine ⟨?_, ?_, ?_, ?_, ?_⟩
        · simp only [List.length_append, List.length_cons, List.length_nil]
          push_cast
          omega
        · have hlt' : sys'.sched.activeWorkers < (3 : Int) := hlt
          simp only [List.length_append, List.length_cons, List.length_nil]
          omega
        · intro x hx
          exact hmemq x (by rw [hqeq]; exact List.mem_cons_of_mem _ hx)
        · intro p hp
          rcases List.mem_append.mp hp with hp | hp
          · obtain ⟨h1, h2⟩ := hinf p hp
            exact ⟨List.mem_append_left _ h1, h2⟩
          · rcases List.mem_singleton.mp hp with rfl
            exact hdmem
        · intro docId st hst
          obtain ⟨x, hx1, hx2, hx3⟩ := hev docId st hst
          exact ⟨x, List.mem_append_left _ hx1, hx2, hx3⟩
  | emitIndexing pre post doc hr hin ih =>
    obtain ⟨hact, hlen, hq, hinf, hev⟩ := ih
    rename_i ds' sys'
    have hdoc : (doc, false) ∈ sys'.inflight := by
      rw [hin]; exact List.mem_append_right _ (List.mem_cons_self _ _)
    obtain ⟨hdm, hdi⟩ := hinf _ hdoc
    refine ⟨?_, ?_, hq, ?_, ?_⟩
    · simpa [hin] using hact
    · simpa [hin] using hlen
    · intro p hp
      simp only [List.mem_append, List.mem_cons] at hp
      rcases hp with hp | hp | hp
      · exact hinf p (by rw [hin]; exact List.mem_append_left _ hp)
      · subst hp; exact ⟨hdm, hdi⟩
      · refine hinf p ?_
        rw [hin]
        exact List.mem_append_right _ (List.mem_cons_of_mem _ hp)
    · intro docId st hst
      simp only [List.mem_append, List.mem_singleton] at hst
      rcases hst with hst | hst
      · exact hev docId st hst
      · rcases hst
        exact ⟨doc, hdm, hdi, rfl⟩
  | emitTerminal pre post doc st hr hin hst ih =>
    obtain ⟨hact, hlen, hq, hinf, hev⟩ := ih
    rename_i ds' sys'
    have hdoc : (doc, true) ∈ sys'.inflight := by
      rw [hin]; exact List.mem_append_right _ (List.mem_cons_self _ _)
    obtain ⟨hdm, hdi⟩ := hinf _ hdoc
    have hlen' : sys'.inflight.length = pre.length + post.length + 1 := by
      simp [hin]
      omega
    have hmemmid : ∀ p ∈ pre ++ post,
        p.1 ∈ ds' ∧ isImageType p.1.type = false := by
      intro p hp
      rcases List.mem_append.mp hp with hp | hp
      · exact hinf p (by rw [hin]; exact List.mem_append_left _ hp)
      · refine hinf p ?_
        rw [hin]
        exact List.mem_append_right _ (List.mem_cons_of_mem _ hp)
    have hevmid : ∀ docId st',
        CbEvent.statusCb docId st' ∈ sys'.events ++ [CbEvent.statusCb doc.id st] →
        ∃ d, d ∈ ds' ∧ isImageType d.type = false ∧ d.id = docId := by
      intro docId st' hm
      simp only [List.mem_append, List.mem_singleton] at hm
      rcases hm with hm | hm
      · exact hev docId st' hm
      · rcases hm
        exact ⟨doc, hdm, hdi, rfl⟩
    rcases processNext_cases ⟨sys'.sched.queue, sys'.sched.activeWorkers - 1⟩ with
      ⟨heq, _⟩ | ⟨d, rest, hqeq, hlt, heq⟩
    · have happ : applyTerminal ⟨sys'.sched, pre ++ post,
          sys'.events ++ [CbEvent.statusCb doc.id st]⟩ =
          ⟨⟨sys'.sched.queue, sys'.sched.activeWorkers - 1⟩, pre ++ post,
            sys'.events ++ [CbEvent.statusCb doc.id st]⟩ := by
        simp only [applyTerminal, handleTerminal, heq, Option.toList_none,
          List.map_nil, List.append_nil]
      rw [happ]
      refine ⟨?_, ?_, hq, hmemmid, hevmid⟩
      · simp only [List.length_append]
        omega
      · simp only [List.length_append]
        omega
    · simp only at hqeq
      have happ : applyTerminal ⟨sys'.sched, pre ++ post,
          sys'.events ++ [CbEvent.statusCb doc.id st]⟩ =
          ⟨⟨rest, sys'.sched.activeWorkers - 1 + 1⟩, (pre ++ post) ++ [(d, false)],
            sys'.events ++ [CbEvent.statusCb doc.id st]⟩ := by
        simp only [applyTerminal, handleTerminal, heq, Option.toList_some,
          List.map_cons, List.map_nil]
      rw [happ]
      have hdmem : d ∈ ds' ∧ isImageType d.type = false :=
        hq d (by rw [hqeq]; exact List.mem_cons_self _ _)
      refine ⟨?_, ?_, ?_, ?_, hevmid⟩
      · simp only [List.length_append, List.length_cons, List.length_nil]
        push_cast
        omega
      · simp only [List.length_append, List.length_cons, List.length_nil]
        omega
      · intro x hx
        exact hq x (by rw [hqeq]; exact List.mem_cons_of_mem _ hx)
      · intro p hp
        rcases List.mem_append.mp hp with hp | hp
        · exact hmemmid p hp
        · rcases List.mem_singleton.mp hp with rfl
          exact hdmem


/-- Claim C4: in every reachable scheduler state the active-worker count
satisfies `0 ≤ activeWorkers ≤ MAX_CONCURRENT = 3`; `processNext` dequeues
and dispatches a document only when the active count is below 3 and the queue
is non-empty (and then it dispatches the queue head and increments the count
by one); and a terminal worker status is handled by decrementing the count and
immediately re-running admission. -/
theorem scheduler_bounded_concurrency :
    (∀ (ds : List Document) (sys : SysState), Reachable ds sys →
      0 ≤ sys.sched.activeWorkers ∧ sys.sched.activeWorkers ≤ MAX_CONCURRENT) ∧
    (∀ (s s' : SchedState) (d : Document), processNext s = (s', some d) →
      s.activeWorkers < MAX_CONCURRENT ∧ s.queue ≠ [] ∧ s.queue.head? = some d ∧
      s'.activeWorkers = s.activeWorkers + 1 ∧ s'.queue = s.queue.tail) ∧
    (∀ s : SchedState, handleTerminal s =
      processNext ⟨s.queue, s.activeWorkers - 1⟩) := by
  refine ⟨?_, ?_, fun s => rfl⟩
  · intro ds sys h
    obtain ⟨hact, hlen, -, -, -⟩ := reachable_sysInv h
    have h3 : MAX_CONCURRENT = (3 : Int) := rfl
    rw [hact, h3]
    constructor
    · positivity
    · exact_mod_cast hlen
  · intro s s' d h
    rcases processNext_cases s with ⟨heq, _⟩ | ⟨d', rest, hq, hlt, heq⟩
    · rw [heq] at h
      exact absurd (congrArg Prod.snd h) (by simp)
    · rw [heq] at h
      have hd : d' = d := by
        have h2 := congrArg Prod.snd h
        simpa using h2
      have hs : s' = ⟨rest, s.activeWorkers + 1⟩ := by
        have h1 := congrArg Prod.fst h
        simpa using h1.symm
      subst hd hs
      exact ⟨hlt, by simp [hq], by simp [hq], rfl, by simp [hq]⟩

/-- Witness for C4: the invariant at the initial state, and the
terminal-handling equation at a concrete state. -/
theorem scheduler_bounded_concurrency_witness :
    (0 ≤ initSys.sched.activeWorkers ∧ initSys.sched.activeWorkers ≤ MAX_CONCURRENT) ∧
    handleTerminal ⟨[], 1⟩ = processNext ⟨[], 1 - 1⟩ :=
  ⟨scheduler_bounded_concurrency.1 [] initSys Reachable.init,
   scheduler_bounded_concurrency.2.2 ⟨[], 1⟩⟩

/-- Claim C9: a document whose MIME type starts with `image/` is rejected
silently by `queueDocument` — the scheduler state (queue and active count) is
returned unchanged and nothing is dispatched — and in every reachable system
trace, if every queued document bearing a given id is such an image document,
then no status callback is ever invoked with that id. -/
theorem image_documents_rejected_silently :
    (∀ (s : SchedState) (doc : Document), isImageType doc.type = true →
      queueDocument s doc = (s, none)) ∧
    (∀ (ds : List Document) (sys : SysState) (docId : String), Reachable ds sys →
      (∀ d ∈ ds, d.id = docId → isImageType d.type = true) →
      ∀ st, CbEvent.statusCb docId st ∉ sys.events) := by
  constructor
  · intro s doc himg
    simp only [queueDocument, if_pos himg]
  · intro ds sys docId h hall st hmem
    obtain ⟨-, -, -, -, hev⟩ := reachable_sysInv h
    obtain ⟨d, hd1, hd2, hd3⟩ := hev docId st hmem
    rw [hall d hd1 hd3] at hd2
    exact absurd hd2 (by simp)

/-- Witness for C9: queueing a concrete `image/png` document into the initial
system leaves the state unchanged and produces no status callback for it. -/
theorem image_documents_rejected_silently_witness :
    queueDocument initSys.sched
        ⟨"img1", "shot.png", "image/png", 4, "x", none, none, none, .ready, none, false⟩ =
      (initSys.sched, none) ∧
    CbEvent.statusCb "img1" IndexingStatus.indexing ∉
      (applyQueue initSys
        ⟨"img1", "shot.png", "image/png", 4, "x", none, none, none, .ready, none, false⟩).events :=
  ⟨image_documents_rejected_silently.1 initSys.sched
      ⟨"img1", "shot.png", "image/png", 4, "x", none, none, none, .ready, none, false⟩
      (by decide),
   image_documents_rejected_silently.2
      [⟨"img1", "shot.png", "image/png", 4, "x", none, none, none, .ready, none, false⟩]
      (applyQueue initSys
        ⟨"img1", "shot.png", "image/png", 4, "x", none, none, none, .ready, none, false⟩)
      "img1"
      (Reachable.queue _ Reachable.init)
      (by decide)
      IndexingStatus.indexing⟩

/-! Section: theorems about the per-document worker -/

/-- Claim C5: for every document and every outcome of the embedding call, the
worker posts exactly two messages for the document, in order: first the
`indexing` status, then a single terminal status (`completed` or `failed`);
the terminal status is `failed` exactly when the embedding call was reached
(i.e. chunking produced at least one chunk) and threw; a document with zero
chunks completes with no data payload.  Totality of `runWorker` over every
oracle outcome reflects that the handler catches every exception and converts
it into the `failed` emission. -/
theorem worker_status_protocol (doc : Document)
    (embedRes : Except Unit (List (Option (List ℚ)))) :
    (runWorker doc embedRes).map (fun m => m.docId) = [doc.id, doc.id] ∧
    ((runWorker doc embedRes).map (fun m => m.status) =
        [IndexingStatus.indexing, IndexingStatus.completed] ∨
      (runWorker doc embedRes).map (fun m => m.status) =
        [IndexingStatus.indexing, IndexingStatus.failed]) ∧
    ((runWorker doc embedRes).map (fun m => m.status) =
        [IndexingStatus.indexing, IndexingStatus.failed] ↔
      workerChunks doc ≠ [] ∧ embedRes = .error ()) ∧
    (workerChunks doc = [] →
      runWorker doc embedRes =
        [⟨doc.id, .indexing, none⟩, ⟨doc.id, .completed, none⟩]) := by
  by_cases hc : workerChunks doc = []
  · refine ⟨by simp [runWorker, hc], Or.inl (by simp [runWorker, hc]), ?_, fun _ => by
      simp [runWorker, hc]⟩
    constructor
    · intro h
      simp [runWorker, hc] at h
    · rintro ⟨hne, -⟩
      exact absurd hc hne
  · have hpos : 0 < (workerChunks doc).length := List.length_pos.mpr hc
    match embedRes with
    | .error u =>
      rcases u
      refine ⟨by simp [runWorker, hpos], Or.inr (by simp [runWorker, hpos]), ?_,
        fun h => absurd h hc⟩
      constructor
      · intro _
        exact ⟨hc, rfl⟩
      · intro _
        simp [runWorker, hpos]
    | .ok embeddings =>
      refine ⟨by simp [runWorker, hpos], Or.inl (by simp [runWorker, hpos]), ?_,
        fun h => absurd h hc⟩
      constructor
      · intro h
        simp [runWorker, hpos] at h
      · rintro ⟨-, h⟩
        exact absurd h (by simp)

/-- Witness for C5: the zero-chunk implication discharged on a concrete
document with empty content. -/
theorem worker_status_protocol_witness :
    runWorker ⟨"d1", "a.txt", "text/plain", 0, "", none, none, none, .ready, none, false⟩
        (.ok []) =
      [⟨"d1", .indexing, none⟩, ⟨"d1", .completed, none⟩] :=
  (worker_status_protocol
      ⟨"d1", "a.txt", "text/plain", 0, "", none, none, none, .ready, none, false⟩
      (.ok [])).2.2.2
    (by simp [workerChunks, splitTextIntoChunks, splitLoop])

/-- Claim C1: composing the worker's message sequence with the scheduler's
message handler, the data callback is invoked with `(doc.id, chunks)` exactly
when the embedding call succeeded, chunking was non-trivial, and the
positional zip of chunks with embeddings is the non-empty list `chunks`; in
particular no data callback is ever invoked for a document whose run failed
or produced no results. -/
theorem data_callback_iff_success (doc : Document)
    (embedRes : Except Unit (List (Option (List ℚ)))) (l : List EmbeddedChunk) :
    CbEvent.dataCb doc.id l ∈
        (runWorker doc embedRes).flatMap handleWorkerMessage ↔
      (∃ embeddings, embedRes = .ok embeddings ∧ workerChunks doc ≠ [] ∧
        l = zipEmbeddings (workerChunks doc) embeddings ∧ l ≠ []) := by
  by_cases hc : workerChunks doc = []
  · simp [runWorker, hc, handleWorkerMessage]
  · have hpos : 0 < (workerChunks doc).length := List.length_pos.mpr hc
    match embedRes with
    | .error u =>
      rcases u
      simp [runWorker, hpos, handleWorkerMessage]
    | .ok embeddings =>
      by_cases hz : zipEmbeddings (workerChunks doc) embeddings = []
      · have hev : (runWorker doc (.ok embeddings)).flatMap handleWorkerMessage =
            [CbEvent.statusCb doc.id .indexing, CbEvent.statusCb doc.id .completed] := by
          simp [runWorker, hpos, handleWorkerMessage, hz]
        rw [hev]
        simp only [List.mem_cons, List.not_mem_nil, or_false]
        constructor
        · intro h
          rcases h with h | h <;> exact absurd h (by simp)
        · rintro ⟨e, he, -, hl, hlne⟩
          obtain rfl : e = embeddings := by
            injection he with h
            exact h.symm
          exact absurd (hl.trans hz) hlne
      · have hzpos : 0 < (zipEmbeddings (workerChunks doc) embeddings).length :=
          List.length_pos.mpr hz
        have hev : (runWorker doc (.ok embeddings)).flatMap handleWorkerMessage =
            [CbEvent.statusCb doc.id .indexing, CbEvent.statusCb doc.id .completed,
              CbEvent.dataCb doc.id (zipEmbeddings (workerChunks doc) embeddings)] := by
          simp [runWorker, hpos, handleWorkerMessage, hzpos]
        rw [hev]
        simp only [List.mem_cons, List.not_mem_nil, or_false]
        constructor
        · intro h
          rcases h with h | h | h
          · exact absurd h (by simp)
          · exact absurd h (by simp)
          · have hl : l = zipEmbeddings (workerChunks doc) embeddings := by
              injection h
            exact ⟨embeddings, rfl, hc, hl, by rw [hl]; exact hz⟩
        · rintro ⟨e, he, -, hl, -⟩
          obtain rfl : e = embeddings := by
            injection he with h
            exact h.symm
          right
          right
          rw [hl]

/-- Witness for C1: with a throwing embedding oracle, no data callback is
invoked for a concrete document. -/
theorem data_callback_iff_success_witness :
    CbEvent.dataCb "d1" [] ∉
      (runWorker ⟨"d1", "a.txt", "text/plain", 2, "hi", none, none, none, .ready, none, false⟩
        (.error ())).flatMap handleWorkerMessage := by
  intro hmem
  obtain ⟨e, he, -, -, -⟩ := (data_callback_iff_success
    ⟨"d1", "a.txt", "text/plain", 2, "hi", none, none, none, .ready, none, false⟩
    (.error ()) []).mp hmem
  exact Except.noConfusion he

/-! Section: lemmas about the chunker -/

/-- Bounds on the JS `lastIndexOf` model: the result is at least `-1` and at
most the search start position. -/
theorem lastIndexOf_bounds (text : List Char) (c : Char) (pos : Nat) :
    -1 ≤ lastIndexOf text c pos ∧ lastIndexOf text c pos ≤ (pos : Int) := by
  unfold lastIndexOf
  rcases hg : ((List.range (pos + 1)).filter
      (fun i => decide (text.get? i = some c))).getLast? with - | j
  · simp only [hg]
    constructor <;> omega
  · have hmem := List.mem_of_getLast?_eq_some hg
    have hj : j ∈ List.range (pos + 1) := (List.mem_filter.mp hmem).1
    have hlt : j < pos + 1 := List.mem_range.mp hj
    simp only [hg]
    constructor <;> omega

/-- The computed chunk end never exceeds the candidate end by more than one:
a snap point is at most the candidate end `startIndex + chunkSize`, and the
snapped end includes the snap character. -/
theorem computeEnd_le_add (text : List Char) (chunkSize startIndex : Nat) :
    computeEnd text chunkSize startIndex ≤ startIndex + chunkSize + 1 := by
  simp only [computeEnd]
  obtain ⟨hn1, hn2⟩ := lastIndexOf_bounds text '\n' (startIndex + chunkSize)
  obtain ⟨hs1, hs2⟩ := lastIndexOf_bounds text ' ' (startIndex + chunkSize)
  split
  · split
    · omega
    · split
      · omega
      · omega
  · omega

/-- Inside the loop the computed chunk end never exceeds the text length. -/
theorem computeEnd_le_length (text : List Char) (chunkSize startIndex : Nat)
    (h : startIndex < text.length) :
    computeEnd text chunkSize startIndex ≤ text.length := by
  simp only [computeEnd]
  obtain ⟨hn1, hn2⟩ := lastIndexOf_bounds text '\n' (startIndex + chunkSize)
  obtain ⟨hs1, hs2⟩ := lastIndexOf_bounds text ' ' (startIndex + chunkSize)
  split
  · split
    · omega
    · split
      · omega
      · omega
  · omega

/-- With a positive chunk size, each chunk is non-degenerate: the computed end
lies strictly beyond the start. -/
theorem lt_computeEnd (text : List Char) (chunkSize startIndex : Nat)
    (hcs : 1 ≤ chunkSize) (h : startIndex < text.length) :
    startIndex < computeEnd text chunkSize startIndex := by
  simp only [computeEnd]
  split
  · split
    · omega
    · split
      · omega
      · omega
  · omega

/-- Unfolding of the loop when the start is inside the text. -/
theorem splitLoop_of_lt {text : List Char} {documentId : String}
    {chunkSize overlap startIndex count : Nat} (h : startIndex < text.length) :
    splitLoop text documentId chunkSize overlap startIndex count =
      if (mkChunk text documentId chunkSize startIndex count).endIndex = text.length then
        [mkChunk text documentId chunkSize startIndex count]
      else
        mkChunk text documentId chunkSize startIndex count ::
          splitLoop text documentId chunkSize overlap
            (nextStart startIndex
              (mkChunk text documentId chunkSize startIndex count).endIndex overlap)
            (count + 1) := by
  rw [splitLoop]
  simp [h]

/-- Unfolding of the loop when the start has reached the end of the text. -/
theorem splitLoop_of_ge {text : List Char} {documentId : String}
    {chunkSize overlap startIndex count : Nat} (h : ¬ startIndex < text.length) :
    splitLoop text documentId chunkSize overlap startIndex count = [] := by
  rw [splitLoop]
  simp [h]

theorem mkChunk_startIndex (text : List Char) (documentId : String)
    (chunkSize startIndex count : Nat) :
    (mkChunk text documentId chunkSize startIndex count).startIndex = startIndex := rfl

theorem mkChunk_endIndex (text : List Char) (documentId : String)
    (chunkSize startIndex count : Nat) :
    (mkChunk text documentId chunkSize startIndex count).endIndex =
      computeEnd text chunkSize startIndex := rfl

theorem mkChunk_content (text : List Char) (documentId : String)
    (chunkSize startIndex count : Nat) :
    (mkChunk text documentId chunkSize startIndex count).content =
      (text.drop startIndex).take
        (computeEnd text chunkSize startIndex - startIndex) := rfl

/-- Fuel-bounded workhorse: the loop emits at most `text.length - startIndex`
chunks. -/
theorem splitLoop_length_le (text : List Char) (documentId : String)
    (chunkSize overlap : Nat) :
    ∀ (n startIndex count : Nat), text.length - startIndex ≤ n →
      (splitLoop text documentId chunkSize overlap startIndex count).length ≤
        text.length - startIndex := by
  intro n
  induction n with
  | zero =>
    intro s c h
    have hs : ¬ s < text.length := by omega
    rw [splitLoop_of_ge hs]
    simp
  | succ n ih =>
    intro s c h
    by_cases hs : s < text.length
    · rw [splitLoop_of_lt hs]
      split
      · simpa using by omega
      · have hnext : s + 1 ≤ nextStart s
            (mkChunk text documentId chunkSize s c).endIndex overlap :=
          le_max_left _ _
        have hrec := ih (nextStart s
          (mkChunk text documentId chunkSize s c).endIndex overlap) (c + 1) (by omega)
        simp only [List.length_cons]
        omega
    · rw [splitLoop_of_ge hs]
      simp

/-- Fuel-bounded workhorse: every chunk the loop emits starts at or after the
loop's current start, starts inside the text, and has exactly the end and the
content computed by one loop iteration at its start. -/
theorem splitLoop_mem (text : List Char) (documentId : String)
    (chunkSize overlap : Nat) :
    ∀ (n startIndex count : Nat), text.length - startIndex ≤ n →
      ∀ ch ∈ splitLoop text documentId chunkSize overlap startIndex count,
        startIndex ≤ ch.startIndex ∧ ch.startIndex < text.length ∧
        ch.endIndex = computeEnd text chunkSize ch.startIndex ∧
        ch.content = (text.drop ch.startIndex).take (ch.endIndex - ch.startIndex) := by
  intro n
  induction n with
  | zero =>
    intro s c h ch hch
    have hs : ¬ s < text.length := by omega
    rw [splitLoop_of_ge hs] at hch
    exact absurd hch (List.not_mem_nil ch)
  | succ n ih =>
    intro s c h ch hch
    by_cases hs : s < text.length
    · rw [splitLoop_of_lt hs] at hch
      have hbase : ch = mkChunk text documentId chunkSize s c →
          s ≤ ch.startIndex ∧ ch.startIndex < text.length ∧
          ch.endIndex = computeEnd text chunkSize ch.startIndex ∧
          ch.content = (text.drop ch.startIndex).take (ch.endIndex - ch.startIndex) := by
        rintro rfl
        exact ⟨le_refl s, hs, rfl, rfl⟩
      rcases (by assumption : s < text.length) with -
      split at hch
      · exact hbase (List.mem_singleton.mp hch)
      · rcases List.mem_cons.mp hch with hch | hch
        · exact hbase hch
        · have hnext : s + 1 ≤ nextStart s
              (mkChunk text documentId chunkSize s c).endIndex overlap :=
            le_max_left _ _
          obtain ⟨h1, h2, h3, h4⟩ := ih (nextStart s
            (mkChunk text documentId chunkSize s c).endIndex overlap) (c + 1)
            (by omega) ch hch
          exact ⟨by omega, h2, h3, h4⟩
    · rw [splitLoop_of_ge hs] at hch
      exact absurd hch (List.not_mem_nil ch)

/-- Fuel-bounded workhorse: with a positive chunk size, the loop started
inside the text produces a non-empty list whose head starts at the loop start
and whose last chunk ends exactly at the text length. -/
theorem splitLoop_head_last (text : List Char) (documentId : String)
    (chunkSize overlap : Nat) (hcs : 1 ≤ chunkSize) :
    ∀ (n startIndex count : Nat), text.length - startIndex ≤ n →
      startIndex < text.length →
      (splitLoop text documentId chunkSize overlap startIndex count).head? =
        some (mkChunk text documentId chunkSize startIndex count) ∧
      ∀ ch, (splitLoop text documentId chunkSize overlap startIndex count).getLast? =
          some ch → ch.endIndex = text.length := by
  intro n
  induction n with
  | zero =>
    intro s c h hs
    omega
  | succ n ih =>
    intro s c h hs
    rw [splitLoop_of_lt hs]
    split
    · rename_i hend
      refine ⟨rfl, ?_⟩
      intro ch hch
      simp only [List.getLast?_singleton, Option.some.injEq] at hch
      rw [← hch, mkChunk_endIndex]
      rw [mkChunk_endIndex] at hend
      exact hend
    · rename_i hend
      have hnext : s + 1 ≤ nextStart s
          (mkChunk text documentId chunkSize s c).endIndex overlap :=
        le_max_left _ _
      have hnlt : nextStart s (mkChunk text documentId chunkSize s c).endIndex overlap <
          text.length := by
        have hle : computeEnd text chunkSize s ≤ text.length :=
          computeEnd_le_length text chunkSize s hs
        have hlt2 : s < computeEnd text chunkSize s := lt_computeEnd text chunkSize s hcs hs
        rw [mkChunk_endIndex] at hend
        have hne : computeEnd text chunkSize s ≠ text.length := hend
        have : nextStart s (mkChunk text documentId chunkSize s c).endIndex overlap ≤
            computeEnd text chunkSize s := by
          rw [mkChunk_endIndex]
          exact max_le (by omega) (by omega)
        omega
      obtain ⟨ihh, ihl⟩ := ih (nextStart s
        (mkChunk text documentId chunkSize s c).endIndex overlap) (c + 1)
        (by omega) hnlt
      refine ⟨rfl, ?_⟩
      intro ch hch
      have hne2 : splitLoop text documentId chunkSize overlap
          (nextStart s (mkChunk text documentId chunkSize s c).endIndex overlap)
          (c + 1) ≠ [] := by
        intro hnil
        rw [hnil] at ihh
        exact Option.noConfusion ihh
      obtain ⟨r, rs, hrr⟩ := List.exists_cons_of_ne_nil hne2
      rw [hrr, List.getLast?_cons_cons] at hch
      apply ihl ch
      rw [hrr]
      exact hch

/-- Fuel-bounded workhorse: consecutive chunks leave no gap — with a positive
chunk size, each chunk after the first starts at or before the previous
chunk's end. -/
theorem splitLoop_chain (text : List Char) (documentId : String)
    (chunkSize overlap : Nat) (hcs : 1 ≤ chunkSize) :
    ∀ (n startIndex count : Nat), text.length - startIndex ≤ n →
      List.Chain' (fun a b => b.startIndex ≤ a.endIndex)
        (splitLoop text documentId chunkSize overlap startIndex count) := by
  intro n
  induction n with
  | zero =>
    intro s c h
    have hs : ¬ s < text.length := by omega
    rw [splitLoop_of_ge hs]
    exact List.chain'_nil
  | succ n ih =>
    intro s c h
    by_cases hs : s < text.length
    · rw [splitLoop_of_lt hs]
      split
      · simp
      · rename_i hend
        have hnext : s + 1 ≤ nextStart s
            (mkChunk text documentId chunkSize s c).endIndex overlap :=
          le_max_left _ _
        have hnlt : nextStart s (mkChunk text documentId chunkSize s c).endIndex overlap <
            text.length := by
          have hle : computeEnd text chunkSize s ≤ text.length :=
            computeEnd_le_length text chunkSize s hs
          have hlt2 : s < computeEnd text chunkSize s :=
            lt_computeEnd text chunkSize s hcs hs
          rw [mkChunk_endIndex] at hend
          have : nextStart s (mkChunk text documentId chunkSize s c).endIndex overlap ≤
              computeEnd text chunkSize s := by
            rw [mkChunk_endIndex]
            exact max_le (by omega) (by omega)
          omega
        have ihc := ih (nextStart s
          (mkChunk text documentId chunkSize s c).endIndex overlap) (c + 1) (by omega)
        obtain ⟨ihh, -⟩ := splitLoop_head_last text documentId chunkSize overlap hcs n
          (nextStart s (mkChunk text documentId chunkSize s c).endIndex overlap) (c + 1)
          (by omega) hnlt
        apply List.chain'_cons'.mpr
        refine ⟨?_, ihc⟩
        intro b hb
        rw [ihh] at hb
        have hbeq : b = mkChunk text documentId chunkSize
            (nextStart s (mkChunk text documentId chunkSize s c).endIndex overlap)
            (c + 1) := by
          injection hb with hb
          exact hb.symm
        rw [hbeq, mkChunk_startIndex]
        exact max_le (by
          have := lt_computeEnd text chunkSize s hcs hs
          rw [mkChunk_endIndex]
          omega) (by rw [mkChunk_endIndex]; omega)
    · rw [splitLoop_of_ge hs]
      exact List.chain'_nil

/-- Fuel-bounded workhorse: with a positive chunk size, every text position at
or after the loop start is covered by some emitted chunk. -/
theorem splitLoop_cover (text : List Char) (documentId : String)
    (chunkSize overlap : Nat) (hcs : 1 ≤ chunkSize) :
    ∀ (n startIndex count : Nat), text.length - startIndex ≤ n →
      ∀ i, startIndex ≤ i → i < text.length →
        ∃ ch ∈ splitLoop text documentId chunkSize overlap startIndex count,
          ch.startIndex ≤ i ∧ i < ch.endIndex := by
  intro n
  induction n with
  | zero =>
    intro s c h i hsi hi
    omega
  | succ n ih =>
    intro s c h i hsi hi
    have hs : s < text.length := by omega
    rw [splitLoop_of_lt hs]
    have hlt2 : s < computeEnd text chunkSize s := lt_computeEnd text chunkSize s hcs hs
    split
    · rename_i hend
      rw [mkChunk_endIndex] at hend
      refine ⟨mkChunk text documentId chunkSize s c, List.mem_singleton_self _, ?_, ?_⟩
      · rw [mkChunk_startIndex]
        exact hsi
      · rw [mkChunk_endIndex, hend]
        exact hi
    · rename_i hend
      rw [mkChunk_endIndex] at hend
      by_cases hcov : i < computeEnd text chunkSize s
      · refine ⟨mkChunk text documentId chunkSize s c, List.mem_cons_self _ _, ?_, ?_⟩
        · rw [mkChunk_startIndex]
          exact hsi
        · rw [mkChunk_endIndex]
          exact hcov
      · have hnext : s + 1 ≤ nextStart s
            (mkChunk text documentId chunkSize s c).endIndex overlap :=
          le_max_left _ _
        have hnle : nextStart s (mkChunk text documentId chunkSize s c).endIndex overlap ≤
            computeEnd text chunkSize s := by
          rw [mkChunk_endIndex]
          exact max_le (by omega) (by omega)
        obtain ⟨ch, hch, hc1, hc2⟩ := ih (nextStart s
          (mkChunk text documentId chunkSize s c).endIndex overlap) (c + 1)
          (by omega) i (by omega) hi
        exact ⟨ch, List.mem_cons_of_mem _ hch, hc1, hc2⟩

/-! Section: theorems about the chunker -/

/-- Claim C7: the chunking loop makes strict forward progress — the next start
index always exceeds the previous one — and consequently `splitTextIntoChunks`
always returns a finite chunk list (of length at most the text length), for
every text, document id, chunk size and overlap, including `overlap ≥
chunkSize`. -/
theorem splitter_terminates :
    (∀ startIndex endIndex overlap : Nat,
      startIndex < nextStart startIndex endIndex overlap) ∧
    (∀ (text : List Char) (documentId : String) (chunkSize overlap : Nat),
      (splitTextIntoChunks text documentId chunkSize overlap).length ≤ text.length) := by
  constructor
  · intro s e ov
    have h1 : s + 1 ≤ nextStart s e ov := le_max_left _ _
    omega
  · intro t d cs ov
    have h := splitLoop_length_le t d cs ov t.length 0 0 (by omega)
    simpa [splitTextIntoChunks] using h

/-- Claim C8: a non-empty text no longer than the chunk size yields exactly
one chunk spanning the whole text, and the empty text yields zero chunks. -/
theorem small_text_single_chunk (text : List Char) (documentId : String)
    (chunkSize overlap : Nat) :
    (0 < text.length → text.length ≤ chunkSize →
      splitTextIntoChunks text documentId chunkSize overlap =
        [⟨documentId ++ "_" ++ toString 0, documentId, text, 0, text.length⟩]) ∧
    splitTextIntoChunks [] documentId chunkSize overlap = [] := by
  constructor
  · intro hpos hle
    have hcomp : computeEnd text chunkSize 0 = text.length := by
      simp only [computeEnd]
      rw [if_neg (by omega)]
    have hmk : mkChunk text documentId chunkSize 0 0 =
        ⟨documentId ++ "_" ++ toString 0, documentId, text, 0, text.length⟩ := by
      unfold mkChunk
      rw [hcomp]
      simp
    unfold splitTextIntoChunks
    rw [splitLoop_of_lt hpos, hmk]
    rw [if_pos rfl]
  · unfold splitTextIntoChunks
    rw [splitLoop_of_ge (by simp)]

/-- Witness for C8: a concrete three-character text under a chunk size of 5
yields the single whole-text chunk, and the empty text yields none. -/
theorem small_text_single_chunk_witness :
    splitTextIntoChunks ("abc".toList) "d" 5 2 =
      [⟨"d" ++ "_" ++ toString 0, "d", "abc".toList, 0, ("abc".toList).length⟩] ∧
    splitTextIntoChunks [] "d" 5 2 = [] :=
  ⟨(small_text_single_chunk ("abc".toList) "d" 5 2).1 (by decide) (by decide),
   (small_text_single_chunk ([] : List Char) "d" 5 2).2⟩

/-- Claim C10: for a positive chunk size the chunks cover the text with no
gaps — the list is empty exactly for the empty text, the first chunk starts at
0, each chunk starts at or before the previous chunk's end, the last chunk
ends at the text length, every chunk is non-degenerate with content equal to
the corresponding substring, and every character position lies inside at
least one chunk. -/
theorem chunks_cover_text (text : List Char) (documentId : String)
    (chunkSize overlap : Nat) (hcs : 1 ≤ chunkSize) :
    (splitTextIntoChunks text documentId chunkSize overlap = [] ↔ text = []) ∧
    (∀ ch, (splitTextIntoChunks text documentId chunkSize overlap).head? = some ch →
      ch.startIndex = 0) ∧
    List.Chain' (fun a b => b.startIndex ≤ a.endIndex)
      (splitTextIntoChunks text documentId chunkSize overlap) ∧
    (∀ ch, (splitTextIntoChunks text documentId chunkSize overlap).getLast? = some ch →
      ch.endIndex = text.length) ∧
    (∀ ch ∈ splitTextIntoChunks text documentId chunkSize overlap,
      ch.startIndex < ch.endIndex ∧ ch.endIndex ≤ text.length ∧
      ch.content = (text.drop ch.startIndex).take (ch.endIndex - ch.startIndex)) ∧
    (∀ i, i < text.length →
      ∃ ch ∈ splitTextIntoChunks text documentId chunkSize overlap,
        ch.startIndex ≤ i ∧ i < ch.endIndex) := by
  by_cases hemp : text = []
  · subst hemp
    have hnil : splitTextIntoChunks ([] : List Char) documentId chunkSize overlap = [] := by
      unfold splitTextIntoChunks
      rw [splitLoop_of_ge (by simp)]
    refine ⟨by simp [hnil], ?_, ?_, ?_, ?_, ?_⟩ <;> simp [hnil]
  · have hpos : 0 < text.length := List.length_pos.mpr hemp
    obtain ⟨hhead, hlast⟩ := splitLoop_head_last text documentId chunkSize overlap hcs
      text.length 0 0 (by omega) hpos
    refine ⟨?_, ?_, ?_, ?_, ?_, ?_⟩
    · constructor
      · intro hnil
        unfold splitTextIntoChunks at hnil
        rw [hnil] at hhead
        exact absurd hhead (by simp)
      · intro h
        exact absurd h hemp
    · intro ch hch
      unfold splitTextIntoChunks at hch
      rw [hhead] at hch
      have : ch = mkChunk text documentId chunkSize 0 0 := by
        injection hch with h
        exact h.symm
      rw [this, mkChunk_startIndex]
    · exact splitLoop_chain text documentId chunkSize overlap hcs text.length 0 0 (by omega)
    · intro ch hch
      exact hlast ch hch
    · intro ch hch
      obtain ⟨-, hlt, hend, hcont⟩ := splitLoop_mem text documentId chunkSize overlap
        text.length 0 0 (by omega) ch hch
      refine ⟨?_, ?_, hcont⟩
      · rw [hend]
        exact lt_computeEnd text chunkSize ch.startIndex hcs hlt
      · rw [hend]
        exact computeEnd_le_length text chunkSize ch.startIndex hlt
    · intro i hi
      exact splitLoop_cover text documentId chunkSize overlap hcs text.length 0 0
        (by omega) i (by omega) hi

/-- Witness for C10: the coverage theorem applied at a concrete two-character
text with chunk size 1. -/
theorem chunks_cover_text_witness :
    splitTextIntoChunks ("ab".toList) "d" 1 0 = [] ↔ ("ab".toList : List Char) = [] :=
  (chunks_cover_text ("ab".toList) "d" 1 0 (by decide)).1

/-- Helper: full concrete evaluation of the splitter on the four-character
text `"ab\nz"` with `chunkSize = 2`, `overlap = 0`.  The candidate end of the
first chunk is 2; position 2 holds the newline, which passes the midpoint
test, so the first chunk is snapped to end 3 — one more than the chunk
size. -/
theorem split_example_eval :
    splitTextIntoChunks ("ab\nz".toList) "doc" 2 0 =
      [⟨"doc_0", "doc", "ab\n".toList, 0, 3⟩, ⟨"doc_1", "doc", "z".toList, 3, 4⟩] := by
  have h1 : mkChunk ("ab\nz".toList) "doc" 2 0 0 =
      ⟨"doc_0", "doc", "ab\n".toList, 0, 3⟩ := by decide
  have h2 : mkChunk ("ab\nz".toList) "doc" 2 3 1 =
      ⟨"doc_1", "doc", "z".toList, 3, 4⟩ := by decide
  unfold splitTextIntoChunks
  rw [splitLoop_of_lt (by decide), h1]
  rw [if_neg (by decide)]
  have hnext : nextStart 0 (3 : Nat) 0 = 3 := by decide
  show _ :: splitLoop _ _ _ _ (nextStart 0
      (⟨"doc_0", "doc", "ab\n".toList, 0, 3⟩ : Chunk).endIndex 0) 1 = _
  rw [show nextStart 0 (⟨"doc_0", "doc", "ab\n".toList, 0, 3⟩ : Chunk).endIndex 0 = 3
    from by decide]
  rw [splitLoop_of_lt (by decide), h2]
  rw [if_pos (by decide)]

/-- Counterexample to claim C2 as stated: on the text `"ab\nz"` (length 4,
greater than the chunk size 2) with `overlap = 0`, the first chunk produced by
the splitter spans `[0, 3)` — newline snapping extended it to length 3, which
exceeds the chunk size 2, because `lastIndexOf(c, endIndex)` searches
inclusively of the candidate end and the snapped end adds one to include the
snap character. -/
theorem chunk_size_claim_counterexample :
    2 < ("ab\nz".toList).length ∧
    ¬ (∀ ch ∈ splitTextIntoChunks ("ab\nz".toList) "doc" 2 0,
        ch.endIndex - ch.startIndex ≤ 2) := by
  refine ⟨by decide, ?_⟩
  intro h
  have hmem : (⟨"doc_0", "doc", "ab\n".toList, 0, 3⟩ : Chunk) ∈
      splitTextIntoChunks ("ab\nz".toList) "doc" 2 0 := by
    rw [split_example_eval]
    exact List.mem_cons_self _ _
  have := h _ hmem
  simp at this

/-- Claim C2 as amended: for every text longer than the chunk size, every
chunk's `endIndex - startIndex` is at most `chunkSize + 1` — the snap point is
at most the candidate end `start + chunkSize`, and the snapped end includes
the snap character, adding at most one. -/
theorem chunk_size_bound (text : List Char) (documentId : String)
    (chunkSize overlap : Nat) (hlen : chunkSize < text.length) :
    ∀ ch ∈ splitTextIntoChunks text documentId chunkSize overlap,
      ch.endIndex - ch.startIndex ≤ chunkSize + 1 := by
  intro ch hch
  obtain ⟨-, -, hend, -⟩ := splitLoop_mem text documentId chunkSize overlap
    text.length 0 0 (by omega) ch hch
  have hb := computeEnd_le_add text chunkSize ch.startIndex
  omega

/-- Witness for the amended C2: the bound at the concrete snapped chunk of the
`"ab\nz"` example. -/
theorem chunk_size_bound_witness :
    (⟨"doc_0", "doc", "ab\n".toList, 0, 3⟩ : Chunk).endIndex -
      (⟨"doc_0", "doc", "ab\n".toList, 0, 3⟩ : Chunk).startIndex ≤ 2 + 1 :=
  chunk_size_bound ("ab\nz".toList) "doc" 2 0 (by decide) _
    (by rw [split_example_eval]; exact List.mem_cons_self _ _)

end Spec2Proof
